import Mathlib

/-!
Verification of the 2-dimensional kernel density estimator via diffusion
(`kde2d.py`).  The numerical code is shallowly embedded over the real
numbers: machine floats become exact reals, the external collaborators
(the 2d cosine transform pair, the histogram primitive and the bracketed
root finder) become explicit parameters with their documented contracts,
and the internal solver functions ψ and γ are translated line by line
from the source.
-/

open Real

namespace KDE

/-- Square real matrices, indexed the way the binned histogram is. -/
def Mat (n : ℕ) := Fin n → Fin n → ℝ

/-- Source: `Πi = product(arange(1, 2*i, 2))` — the product
`1 * 3 * ⋯ * (2*i-1)` of the first `i` odd numbers, empty product `1`. -/
noncomputable def prodOdd : ℕ → ℝ
  | 0 => 1
  | i + 1 => prodOdd i * (2 * (i : ℝ) + 1)

/-- Source: `w = 0.5 * ones(n); w[0] = 1; w = w * exp(-π**2 * k2*t)`. -/
noncomputable def wvec (n : ℕ) (t : ℝ) : Fin n → ℝ := fun k =>
  (if (k : ℕ) = 0 then (1 : ℝ) else 0.5) * Real.exp (-π ^ 2 * ((k : ℕ) : ℝ) ^ 2 * t)

/-- The non-recursive part of the source function `ψ`:
`wx = w * k2**i; wy = w * k2**j;
return (-1)**(i+j) * π**(2*(i+j)) * wy @ a2 @ wx`. -/
noncomputable def ψdirect (n : ℕ) (a2 : Mat n) (i j : ℕ) (t : ℝ) : ℝ :=
  (-1 : ℝ) ^ (i + j) * π ^ (2 * (i + j)) *
    ∑ p : Fin n, ∑ q : Fin n,
      (wvec n t p * (((p : ℕ) : ℝ) ^ 2) ^ j) * a2 p q *
        (wvec n t q * (((q : ℕ) : ℝ) ^ 2) ^ i)

/-- Source function `ψ(i, j, t)` (lines 124–136 of `kde2d.py`), translated
with Python's float arithmetic idealized over ℝ (`x**y` is `Real.rpow`).
When `i + j ≤ 4` the incoming `t` is replaced by the refined
`(C*Πi*Πj / (π*N*abs(Σψ))) ** (1/(2+i+j))` before the direct evaluation,
where `Σψ = ψ(i+1, j, t) + ψ(i, j+1, t)` at the same incoming `t`. -/
noncomputable def ψ (n N : ℕ) (a2 : Mat n) (i j : ℕ) (t : ℝ) : ℝ :=
  if h : i + j ≤ 4 then
    ψdirect n a2 i j
      (((1 + 1 / (2 : ℝ) ^ (i + j + 1)) / 3 * prodOdd i * prodOdd j /
          (π * (N : ℝ) * |ψ n N a2 (i + 1) j t + ψ n N a2 i (j + 1) t|)) ^
        (1 / (2 + (i : ℝ) + (j : ℝ))))
  else
    ψdirect n a2 i j t
termination_by 5 - (i + j)
decreasing_by
  · omega
  · omega

/-- Reference definition from the spec's words: the product of the first
`i` positive odd integers, empty product `1`. -/
noncomputable def prodOddSpec (i : ℕ) : ℝ := ∏ m ∈ Finset.range i, ((2 * m + 1 : ℕ) : ℝ)

/-- Reference definition from the spec's words: the weight vector `w` of
length `n` with `w[0] = 1` and `w[k] = 0.5` for `k > 0`, multiplied
element-wise by `exp(-π²·k²·t)`. -/
noncomputable def wSpec (n : ℕ) (t : ℝ) : Fin n → ℝ := fun k =>
  (if (k : ℕ) = 0 then (1 : ℝ) else 1 / 2) * Real.exp (-π ^ 2 * ((k : ℕ) : ℝ) ^ 2 * t)

/-- Reference definition from the spec's words: with `wx[k] = w[k]·k^(2i)`
and `wy[k] = w[k]·k^(2j)`, the scalar bilinear form
`(-1)^(i+j) · π^(2(i+j)) · (wyᵀ · A² · wx)`. -/
noncomputable def ψdirectSpec (n : ℕ) (a2 : Mat n) (i j : ℕ) (t : ℝ) : ℝ :=
  (-1 : ℝ) ^ (i + j) * π ^ (2 * (i + j)) *
    ∑ q : Fin n,
      (∑ p : Fin n, wSpec n t p * ((p : ℕ) : ℝ) ^ (2 * j) * a2 p q) *
        (wSpec n t q * ((q : ℕ) : ℝ) ^ (2 * i))

/-- Reference definition of `ψ(i, j, t)` from the spec's words: when
`i + j ≤ 4` the incoming `t` is first replaced by
`t = (C·Πi·Πj / (π·N·|Σψ|))^(1/(2+i+j))` with
`Σψ = ψ(i+1, j, t) + ψ(i, j+1, t)` at the same incoming `t`,
`C = (1 + 1/2^(i+j+1))/3` and `Πi`, `Πj` the products of the first `i`
(resp. `j`) positive odd integers; then the bilinear form is evaluated. -/
noncomputable def ψSpec (n N : ℕ) (a2 : Mat n) (i j : ℕ) (t : ℝ) : ℝ :=
  if h : i + j ≤ 4 then
    ψdirectSpec n a2 i j
      (((1 + 1 / (2 : ℝ) ^ (i + j + 1)) / 3 * prodOddSpec i * prodOddSpec j /
          (π * (N : ℝ) * |ψSpec n N a2 (i + 1) j t + ψSpec n N a2 i (j + 1) t|)) ^
        (1 / (2 + (i : ℝ) + (j : ℝ))))
  else
    ψdirectSpec n a2 i j t
termination_by 5 - (i + j)
decreasing_by
  · omega
  · omega

/-- Fuel-bounded evaluator for `ψ`: each recursive step consumes one unit
of fuel and increases `i + j` by exactly one; `none` means the recursion
would need to go deeper than the supplied fuel. -/
noncomputable def ψopt (n N : ℕ) (a2 : Mat n) :
    ℕ → ℕ → ℕ → ℝ → Option ℝ
  | fuel, i, j, t =>
    if i + j ≤ 4 then
      match fuel with
      | 0 => none
      | fuel' + 1 =>
        match ψopt n N a2 fuel' (i + 1) j t, ψopt n N a2 fuel' i (j + 1) t with
        | some s1, some s2 =>
          some (ψdirect n a2 i j
            (((1 + 1 / (2 : ℝ) ^ (i + j + 1)) / 3 * prodOdd i * prodOdd j /
                (π * (N : ℝ) * |s1 + s2|)) ^ (1 / (2 + (i : ℝ) + (j : ℝ)))))
        | _, _ => none
    else
      some (ψdirect n a2 i j t)

/-- Source: `γ = (2*π*N*Σ)**(-1/3)` with
`Σ = ψ(0, 2, t) + ψ(2, 0, t) + 2*ψ(1, 1, t)` — the bandwidth map. -/
noncomputable def γest (n N : ℕ) (a2 : Mat n) (t : ℝ) : ℝ :=
  (2 * π * (N : ℝ) *
      (ψ n N a2 0 2 t + ψ n N a2 2 0 t + 2 * ψ n N a2 1 1 t)) ^ (-(1 : ℝ) / 3)

/-- Source function `γ(t)` (lines 119–122): it returns the fixed-point
residual `(t - γ) / γ`, not the bandwidth map itself. -/
noncomputable def γfun (n N : ℕ) (a2 : Mat n) (t : ℝ) : ℝ :=
  (t - γest n N a2 t) / γest n N a2 t

/-- The scalar function handed to the bracketed root finder:
`brentq(lambda t: t - γ(t), 0, 0.1)`. -/
noncomputable def brentqObjective (n N : ℕ) (a2 : Mat n) (t : ℝ) : ℝ :=
  t - γfun n N a2 t

/-! ## The spectral transform wrapper

The 2d cosine transform pair itself is an external collaborator
(`scipy.fft.dctn` / `scipy.fft.idctn`); the repository only wraps it with
a first-row/first-column scaling.  The transforms are therefore abstract
parameters, constrained by the collaborator's documented round-trip
contract `idctn (dctn M) = M`. -/

/-- Source lines 108–110: after `dctn`, `transformed[0, :] /= 2` and
`transformed[:, 0] /= 2` (the `(0,0)` entry is divided by both). -/
noncomputable def halveFirst (n : ℕ) (M : Mat n) : Mat n := fun i j =>
  M i j / ((if (i : ℕ) = 0 then 2 else 1) * (if (j : ℕ) = 0 then 2 else 1))

/-- Source lines 175–176: `smoothed[0, :] *= 2` and `smoothed[:, 0] *= 2`. -/
noncomputable def doubleFirst (n : ℕ) (M : Mat n) : Mat n := fun i j =>
  M i j * ((if (i : ℕ) = 0 then 2 else 1) * (if (j : ℕ) = 0 then 2 else 1))

/-- `SpectralTransform.forward`: the 2d cosine transform followed by the
first-row/first-column halving. -/
noncomputable def forward (n : ℕ) (dctn : Mat n → Mat n) (M : Mat n) : Mat n :=
  halveFirst n (dctn M)

/-- `SpectralTransform.inverse`: first-row/first-column doubling followed
by the inverse 2d cosine transform. -/
noncomputable def inverse (n : ℕ) (idctn : Mat n → Mat n) (C : Mat n) : Mat n :=
  idctn (doubleFirst n C)

/-- A concrete matrix with a single nonzero entry, used as witness data. -/
noncomputable def singleEntryMat : Mat 2 := fun i j =>
  if (i : ℕ) = 0 ∧ (j : ℕ) = 1 then 5 else 0

/-- Squared wavenumbers: source `k = arange(n); k2 = k**2`. -/
noncomputable def k2f (n : ℕ) (i : Fin n) : ℝ := ((i : ℕ) : ℝ) ^ 2

/-- Source line 148:
`tx1 = (ψ02**(3/4) / (4*π*N*ψ20**(3/4) * (ψ11 + sqrt(ψ02*ψ20))))**(1/3)`. -/
noncomputable def tx1def (N : ℕ) (ψ02 ψ20 ψ11 : ℝ) : ℝ :=
  (ψ02 ^ ((3 : ℝ) / 4) /
      (4 * π * (N : ℝ) * ψ20 ^ ((3 : ℝ) / 4) *
        (ψ11 + Real.sqrt (ψ02 * ψ20)))) ^ ((1 : ℝ) / 3)

/-- Source line 149: the same expression with `ψ02` and `ψ20` exchanged. -/
noncomputable def tx2def (N : ℕ) (ψ02 ψ20 ψ11 : ℝ) : ℝ :=
  (ψ20 ^ ((3 : ℝ) / 4) /
      (4 * π * (N : ℝ) * ψ02 ^ ((3 : ℝ) / 4) *
        (ψ11 + Real.sqrt (ψ02 * ψ20)))) ^ ((1 : ℝ) / 3)

/-- Source lines 171–172:
`smoothed = transformed * outer(exp(-π**2 * k2 * tx2/2), exp(-π**2 * k2 * tx1/2))`. -/
noncomputable def smoothedDef (n : ℕ) (transformed : Mat n) (tx1 tx2 : ℝ) :
    Mat n := fun i j =>
  transformed i j *
    (Real.exp (-π ^ 2 * k2f n i * tx2 / 2) * Real.exp (-π ^ 2 * k2f n j * tx1 / 2))

/-- The outer product `outer(u, v)[i, j] = u[i] * v[j]`, as the spec's
words describe it. -/
noncomputable def outerSpec (n : ℕ) (u v : Fin n → ℝ) : Mat n := fun i j => u i * v j

/-- The spec's words for the smoothing step: element-wise multiplication
of the transform coefficients by the outer product of
`exp(-π²·k²·tx2/2)` along the first matrix axis and `exp(-π²·k²·tx1/2)`
along the second. -/
noncomputable def smoothedSpec (n : ℕ) (transformed : Mat n) (tx1 tx2 : ℝ) :
    Mat n := fun i j =>
  transformed i j *
    outerSpec n (fun p => Real.exp (-π ^ 2 * k2f n p * tx2 / 2))
      (fun q => Real.exp (-π ^ 2 * k2f n q * tx1 / 2)) i j

/-- The spec's formula for `tx1`:
`(ψ02^(3/4) / (4π·N·ψ20^(3/4)·(ψ11 + √(ψ02·ψ20))))^(1/3)`. -/
noncomputable def tx1Spec (N : ℕ) (ψ02 ψ20 ψ11 : ℝ) : ℝ :=
  (ψ02 ^ ((3 : ℝ) / 4) /
      (4 * π * (N : ℝ) * ψ20 ^ ((3 : ℝ) / 4) *
        (ψ11 + Real.sqrt (ψ02 * ψ20)))) ^ ((1 : ℝ) / 3)

/-- The spec's formula for `tx2`: `tx1` with `ψ02` and `ψ20` exchanged. -/
noncomputable def tx2Spec (N : ℕ) (ψ02 ψ20 ψ11 : ℝ) : ℝ :=
  tx1Spec N ψ20 ψ02 ψ11

/-- Source line 180: `density = inverse * n/Δx * n/Δy` (element-wise). -/
noncomputable def densityDef (n : ℕ) (idctn : Mat n → Mat n) (smoothed : Mat n)
    (Δx Δy : ℝ) : Mat n := fun i j =>
  inverse n idctn smoothed i j * (n : ℝ) / Δx * (n : ℝ) / Δy

/-- Source line 183: `bandwidth = array([sqrt(tx2)*Δx, sqrt(tx1)*Δy])`. -/
noncomputable def bandwidthDef (tx1 tx2 Δx Δy : ℝ) : ℝ × ℝ :=
  (Real.sqrt tx2 * Δx, Real.sqrt tx1 * Δy)

/-- The spec's words for the density: multiply row 0 and column 0 of the
smoothed coefficients by 2, run the inverse cosine transform, then scale
element-wise by `(n/Δx)·(n/Δy)`. -/
noncomputable def densitySpec (n : ℕ) (idctn : Mat n → Mat n) (smoothed : Mat n)
    (Δx Δy : ℝ) : Mat n := fun i j =>
  idctn (doubleFirst n smoothed) i j * (((n : ℝ) / Δx) * ((n : ℝ) / Δy))

/-- The spec's words for the bandwidth pair: `(√tx2·Δx, √tx1·Δy)`, in
that fixed order. -/
noncomputable def bandwidthSpec (tx1 tx2 Δx Δy : ℝ) : ℝ × ℝ :=
  (Real.sqrt tx2 * Δx, Real.sqrt tx1 * Δy)

/-- Source line 61: `n = int(2**ceil(log2(n)))`, with the float
arithmetic idealized over ℝ. -/
noncomputable def nextpow2 (m : ℕ) : ℕ := 2 ^ (⌈Real.logb 2 (m : ℝ)⌉.toNat)

/-- The left bin edges exposed as the grid: edge `i` of the uniform
subdivision of `[lo, hi]` into `n` bins (the histogram collaborator's
documented edge layout `linspace(lo, hi, n+1)`, first `n` entries). -/
noncomputable def gridAxis (n : ℕ) (lo hi : ℝ) : Fin n → ℝ := fun i =>
  lo + ((i : ℕ) : ℝ) * (hi - lo) / (n : ℝ)

/-- Per-axis limit specification: absent (inferred from the data), a
single scalar `v` denoting `[-v, v]`, or an explicit pair whose
components may individually be absent. -/
inductive AxisLimit where
  | auto : AxisLimit
  | scalar (v : ℝ) : AxisLimit
  | pair (lo hi : Option ℝ) : AxisLimit

/-- The `limits` argument: absent, a single scalar for both axes, or a
per-axis pair of `AxisLimit`s (source lines 63–86). -/
inductive Limits where
  | auto : Limits
  | scalar (v : ℝ) : Limits
  | perAxis (xl yl : AxisLimit) : Limits

def axisBounds : AxisLimit → Option ℝ × Option ℝ
  | .auto => (none, none)
  | .scalar v => (some (-v), some v)
  | .pair lo hi => (lo, hi)

def limBounds : Limits → (Option ℝ × Option ℝ) × (Option ℝ × Option ℝ)
  | .auto => ((none, none), (none, none))
  | .scalar v => ((some (-v), some v), (some (-v), some v))
  | .perAxis xl yl => (axisBounds xl, axisBounds yl)

def listMax : List ℝ → ℝ
  | [] => 0
  | h :: tl => tl.foldl max h

def listMin : List ℝ → ℝ
  | [] => 0
  | h :: tl => tl.foldl min h

/-- Source lines 87–98: a missing bound is padded by a quarter of the
data range on the missing side. -/
noncomputable def inferBounds (data : List ℝ) (b : Option ℝ × Option ℝ) : ℝ × ℝ :=
  (b.1.getD (listMin data - (listMax data - listMin data) / 4),
    b.2.getD (listMax data + (listMax data - listMin data) / 4))

/-- `((xmin, xmax), (ymin, ymax))` after limit normalization and
inference. -/
noncomputable def resolvedBounds (x y : List ℝ) (limits : Limits) :
    (ℝ × ℝ) × (ℝ × ℝ) :=
  (inferBounds x (limBounds limits).1, inferBounds y (limBounds limits).2)

/-! ## The assembled pipeline -/

/-- The external collaborators: the 2d cosine transform pair, the
histogram primitive (counts only; its deterministic uniform bin edges
are reproduced by `gridAxis`), and the bracketed root finder, which
returns `none` when it cannot bracket or converge to a root. -/
structure Collab where
  dctn : (n : ℕ) → Mat n → Mat n
  idctn : (n : ℕ) → Mat n → Mat n
  histogram2d : (n : ℕ) → List ℝ → List ℝ → ℝ × ℝ → ℝ × ℝ → Mat n
  brentq : (ℝ → ℝ) → ℝ → ℝ → Option ℝ

/-- The `(density, grid, bandwidth)` return value of `kde2d`. -/
structure KdeResult (n : ℕ) where
  density : Mat n
  gridx : Fin n → ℝ
  gridy : Fin n → ℝ
  bandwidth : ℝ × ℝ

/-- Source line 108: `transformed = dctn(binned/N)` followed by the
first-row/first-column halving. -/
noncomputable def transformedOf (cb : Collab) (x y : List ℝ) (n : ℕ)
    (limits : Limits) : Mat n :=
  forward n (cb.dctn n)
    (fun i j =>
      cb.histogram2d n x y (resolvedBounds x y limits).1 (resolvedBounds x y limits).2 i j /
        (x.length : ℝ))

/-- Source line 115: `a2 = transformed**2`, element-wise. -/
noncomputable def a2Of (cb : Collab) (x y : List ℝ) (n : ℕ) (limits : Limits) :
    Mat n := fun i j => transformedOf cb x y n limits i j ^ 2

/-- The successful tail of the pipeline (source lines 145–186), given the
diffusion time `ts` returned by the root finder. -/
noncomputable def kdeSuccess (cb : Collab) (x y : List ℝ) (nreq : ℕ)
    (limits : Limits) (ts : ℝ) : KdeResult (nextpow2 nreq) :=
  let n := nextpow2 nreq
  let N := x.length
  let a2 := a2Of cb x y n limits
  let rb := resolvedBounds x y limits
  let Δx := rb.1.2 - rb.1.1
  let Δy := rb.2.2 - rb.2.1
  let ψ02 := ψ n N a2 0 2 ts
  let ψ20 := ψ n N a2 2 0 ts
  let ψ11 := ψ n N a2 1 1 ts
  let tx1 := tx1def N ψ02 ψ20 ψ11
  let tx2 := tx2def N ψ02 ψ20 ψ11
  { density :=
      densityDef n (cb.idctn n)
        (smoothedDef n (transformedOf cb x y n limits) tx1 tx2) Δx Δy
    gridx := gridAxis n rb.1.1 rb.1.2
    gridy := gridAxis n rb.2.1 rb.2.2
    bandwidth := bandwidthDef tx1 tx2 Δx Δy }

/-- The public entry point `kde2d(x, y, n, limits)`.  Both failure modes
are surfaced as the same Python exception type `ValueError`, modelled as
`Except.error` over one shared message type. -/
noncomputable def kde2d (cb : Collab) (x y : List ℝ) (nreq : ℕ)
    (limits : Limits) : Except String (KdeResult (nextpow2 nreq)) :=
  if y.length ≠ x.length then
    Except.error "x and y must have the same length."
  else
    match cb.brentq
        (brentqObjective (nextpow2 nreq) x.length (a2Of cb x y (nextpow2 nreq) limits))
        0 0.1 with
    | none => Except.error "Bandwidth optimization did not converge."
    | some ts => Except.ok (kdeSuccess cb x y nreq limits ts)

/-! ## A concrete solver instance

A data instance for the solver: `n = 2`, `N = 10^6` samples, squared
transform coefficients concentrated in the single entry `a2[1][1] = 1`.
On it every `ψ(i, j, ·)` has the closed form
`(-1)^(i+j) · π^(2(i+j)) · exp(-2π²·T)/4` for a recursively refined time
`T`, which makes the behaviour of the root-finding objective on the
bracket `[0, 0.1]` fully analyzable. -/

def NI : ℕ := 1000000

noncomputable def a2I : Mat 2 := fun p q =>
  if (p : ℕ) = 1 ∧ (q : ℕ) = 1 then 1 else 0

/-- The closed-form value of `ψ` on the instance `a2I`. -/
noncomputable def phiI (s : ℕ) (T : ℝ) : ℝ :=
  (-1 : ℝ) ^ s * π ^ (2 * s) * (Real.exp (-(2 * π ^ 2) * T) / 4)

/-- The refined diffusion times of the instance `a2I`: the same
recursion as `ψ`, with the bilinear forms replaced by their closed-form
values. -/
noncomputable def TI (i j : ℕ) (t : ℝ) : ℝ :=
  if h : i + j ≤ 4 then
    ((1 + 1 / (2 : ℝ) ^ (i + j + 1)) / 3 * prodOdd i * prodOdd j /
        (π * (NI : ℝ) *
          (π ^ (2 * (i + j) + 2) *
            ((Real.exp (-(2 * π ^ 2) * TI (i + 1) j t) +
                Real.exp (-(2 * π ^ 2) * TI i (j + 1) t)) / 4)))) ^
      (1 / (2 + (i : ℝ) + (j : ℝ)))
  else t
termination_by 5 - (i + j)
decreasing_by
  · omega
  · omega

/-- A collaborator assignment whose root finder always fails, used as
concrete witness data. -/
noncomputable def cbFail : Collab where
  dctn := fun _ M => M
  idctn := fun _ M => M
  histogram2d := fun n _ _ _ _ => fun _ _ => 0
  brentq := fun _ _ _ => none

theorem wvec_eq_wSpec (n : ℕ) (t : ℝ) : wvec n t = wSpec n t := by
  funext k
  unfold wvec wSpec
  norm_num

theorem prodOdd_eq_spec (i : ℕ) : prodOdd i = prodOddSpec i := by
  induction i with
  | zero => simp [prodOdd, prodOddSpec]
  | succ i ih =>
      rw [prodOdd, prodOddSpec, Finset.prod_range_succ, ← prodOddSpec, ← ih]
      push_cast
      ring

theorem ψdirect_eq_spec (n : ℕ) (a2 : Mat n) (i j : ℕ) (t : ℝ) :
    ψdirect n a2 i j t = ψdirectSpec n a2 i j t := by
  unfold ψdirect ψdirectSpec
  rw [wvec_eq_wSpec, Finset.sum_comm]
  congr 1
  refine Finset.sum_congr rfl fun q _ => ?_
  rw [Finset.sum_mul]
  refine Finset.sum_congr rfl fun p _ => ?_
  rw [pow_mul ((p : ℕ) : ℝ) 2 j, pow_mul ((q : ℕ) : ℝ) 2 i]

theorem ψ_eq_spec_aux (n N : ℕ) (a2 : Mat n) :
    ∀ (k i j : ℕ) (t : ℝ), 5 - (i + j) ≤ k →
      ψ n N a2 i j t = ψSpec n N a2 i j t := by
  intro k
  induction k with
  | zero =>
      intro i j t h
      have hij : ¬ i + j ≤ 4 := by omega
      rw [ψ, ψSpec, dif_neg hij, dif_neg hij, ψdirect_eq_spec]
  | succ k ih =>
      intro i j t h
      by_cases hij : i + j ≤ 4
      · rw [ψ, ψSpec, dif_pos hij, dif_pos hij, ψdirect_eq_spec,
          ih (i + 1) j t (by omega), ih i (j + 1) t (by omega),
          prodOdd_eq_spec i, prodOdd_eq_spec j]
      · rw [ψ, ψSpec, dif_neg hij, dif_neg hij, ψdirect_eq_spec]

/-- C1: for all `i`, `j` and `t > 0`, the source function `ψ(i, j, t)`
agrees with the spec's reference definition: the weight vector `w` with
`w[0] = 1`, `w[k] = 0.5` otherwise, damped by `exp(-π²k²t)`, the vectors
`wx[k] = w[k]·k^(2i)`, `wy[k] = w[k]·k^(2j)`, the value
`(-1)^(i+j)·π^(2(i+j))·(wyᵀ·A²·wx)`, and for `i + j ≤ 4` the incoming `t`
first replaced by `(C·Πi·Πj/(π·N·|Σψ|))^(1/(2+i+j))` with
`Σψ = ψ(i+1,j,t) + ψ(i,j+1,t)` at the same incoming `t`,
`C = (1 + 1/2^(i+j+1))/3`, and `Πi`, `Πj` the products of the first `i`
(resp. `j`) positive odd integers. -/
theorem psi_matches_reference (n N : ℕ) (a2 : Mat n) (i j : ℕ) (t : ℝ)
    (ht : 0 < t) : ψ n N a2 i j t = ψSpec n N a2 i j t :=
  ψ_eq_spec_aux n N a2 (5 - (i + j)) i j t le_rfl

theorem psi_matches_reference_witness :
    (0 : ℝ) < 1 ∧
      ψ 1 1 (fun _ _ => 0) 0 0 1 = ψSpec 1 1 (fun _ _ => 0) 0 0 1 :=
  ⟨one_pos, psi_matches_reference 1 1 (fun _ _ => 0) 0 0 1 one_pos⟩

theorem ψopt_eq_psi (n N : ℕ) (a2 : Mat n) :
    ∀ (fuel i j : ℕ) (t : ℝ), 5 ≤ fuel + (i + j) →
      ψopt n N a2 fuel i j t = some (ψ n N a2 i j t) := by
  intro fuel
  induction fuel with
  | zero =>
      intro i j t h
      have hij : ¬ i + j ≤ 4 := by omega
      rw [ψopt, ψ, if_neg hij, dif_neg hij]
  | succ fuel ih =>
      intro i j t h
      by_cases hij : i + j ≤ 4
      · rw [ψopt, ψ, if_pos hij, dif_pos hij,
          ih (i + 1) j t (by omega), ih i (j + 1) t (by omega)]
      · rw [ψopt, ψ, if_neg hij, dif_neg hij]

/-- C7: evaluation of `ψ` terminates from every entry point the solver
uses: each recursive call raises `i + j` by exactly one, the refinement
(and with it the recursion) stops once `i + j > 4`, so from the entry
points `(0,2)`, `(2,0)` and `(1,1)` a recursion depth of 3 always
suffices, and `ψ` is a total function there: the fuel-bounded evaluator
with fuel 3 returns exactly `ψ`'s value. -/
theorem psi_terminates_from_entry_points (n N : ℕ) (a2 : Mat n) (t : ℝ) :
    ψopt n N a2 3 0 2 t = some (ψ n N a2 0 2 t) ∧
      ψopt n N a2 3 2 0 t = some (ψ n N a2 2 0 t) ∧
        ψopt n N a2 3 1 1 t = some (ψ n N a2 1 1 t) :=
  ⟨ψopt_eq_psi n N a2 3 0 2 t (by omega),
    ψopt_eq_psi n N a2 3 2 0 t (by omega),
    ψopt_eq_psi n N a2 3 1 1 t (by omega)⟩

theorem doubleFirst_halveFirst (n : ℕ) (M : Mat n) :
    doubleFirst n (halveFirst n M) = M := by
  funext i j
  unfold doubleFirst halveFirst
  rcases eq_or_ne (i : ℕ) 0 with hi | hi <;>
    rcases eq_or_ne (j : ℕ) 0 with hj | hj <;>
      simp [hi, hj]

/-- C3: for every real `n×n` matrix `M`, the forward spectral transform
(2d cosine transform, then first row and column of the result divided
by 2) followed by the inverse spectral transform (first row and column
multiplied by 2, then the inverse 2d cosine transform) reproduces `M`
exactly over ℝ — in particular for the all-zeros matrix and for matrices
with a single nonzero entry — given the external transform pair's
round-trip contract `idctn ∘ dctn = id`. -/
theorem inverse_forward_id (n : ℕ) (dctn idctn : Mat n → Mat n)
    (hpair : ∀ M : Mat n, idctn (dctn M) = M) (M : Mat n) :
    inverse n idctn (forward n dctn M) = M := by
  unfold inverse forward
  rw [doubleFirst_halveFirst, hpair]

theorem inverse_forward_id_witness :
    (∀ M : Mat 2, id (id M) = M) ∧
      inverse 2 id (forward 2 id singleEntryMat) = singleEntryMat :=
  ⟨fun _ => rfl, inverse_forward_id 2 id id (fun _ => rfl) singleEntryMat⟩

/-! ## Per-axis diffusion times, smoothing, and normalization -/

/-- C4: with `ψ02 = ψ(0,2,t*)`, `ψ20 = ψ(2,0,t*)`, `ψ11 = ψ(1,1,t*)` at
the converged `t*`, the per-axis diffusion times are
`tx1 = (ψ02^(3/4)/(4π·N·ψ20^(3/4)·(ψ11+√(ψ02·ψ20))))^(1/3)` and `tx2`
the same with `ψ02`, `ψ20` exchanged, and the smoothed coefficients are
the transform coefficients times the outer product of
`exp(-π²k²·tx2/2)` along the first axis and `exp(-π²k²·tx1/2)` along the
second — exactly this swapped assignment, not symmetrized. -/
theorem smoothing_matches_spec (n N : ℕ) (a2 : Mat n) (ts : ℝ)
    (transformed : Mat n) :
    tx1def N (ψ n N a2 0 2 ts) (ψ n N a2 2 0 ts) (ψ n N a2 1 1 ts) =
        tx1Spec N (ψ n N a2 0 2 ts) (ψ n N a2 2 0 ts) (ψ n N a2 1 1 ts) ∧
      tx2def N (ψ n N a2 0 2 ts) (ψ n N a2 2 0 ts) (ψ n N a2 1 1 ts) =
        tx2Spec N (ψ n N a2 0 2 ts) (ψ n N a2 2 0 ts) (ψ n N a2 1 1 ts) ∧
      ∀ tx1 tx2 : ℝ, smoothedDef n transformed tx1 tx2 =
        smoothedSpec n transformed tx1 tx2 := by
  refine ⟨rfl, ?_, fun _ _ => rfl⟩
  unfold tx2def tx2Spec tx1Spec
  rw [mul_comm (ψ n N a2 2 0 ts) (ψ n N a2 0 2 ts)]

/-- C5: the final density is obtained from the smoothed coefficients by
doubling row 0 and column 0, applying the inverse spectral transform and
scaling element-wise by `(n/Δx)·(n/Δy)`; the returned bandwidth is the
pair `(√tx2·Δx, √tx1·Δy)`, in that fixed order. -/
theorem density_bandwidth_match_spec (n : ℕ) (idctn : Mat n → Mat n)
    (smoothed : Mat n) (Δx Δy : ℝ) :
    densityDef n idctn smoothed Δx Δy = densitySpec n idctn smoothed Δx Δy ∧
      ∀ tx1 tx2 : ℝ, bandwidthDef tx1 tx2 Δx Δy = bandwidthSpec tx1 tx2 Δx Δy := by
  constructor
  · funext i j
    unfold densityDef densitySpec inverse
    ring
  · intro _ _
    rfl

/-! ## Grid resolution and axis limits -/

theorem le_nextpow2 (m : ℕ) (hm : 1 ≤ m) : m ≤ nextpow2 m := by
  have hm' : (1 : ℝ) ≤ (m : ℝ) := by exact_mod_cast hm
  have hpos : (0 : ℝ) < (m : ℝ) := by linarith
  have hlog : 0 ≤ Real.logb 2 (m : ℝ) := Real.logb_nonneg one_lt_two hm'
  have hk0 : 0 ≤ ⌈Real.logb 2 (m : ℝ)⌉ := Int.ceil_nonneg hlog
  have h1 : (m : ℝ) = (2 : ℝ) ^ Real.logb 2 (m : ℝ) :=
    (Real.rpow_logb two_pos (by norm_num) hpos).symm
  have h2 : (2 : ℝ) ^ Real.logb 2 (m : ℝ) ≤
      (2 : ℝ) ^ ((⌈Real.logb 2 (m : ℝ)⌉.toNat : ℕ) : ℝ) := by
    apply Real.rpow_le_rpow_of_exponent_le one_le_two
    have hcast : ((⌈Real.logb 2 (m : ℝ)⌉.toNat : ℕ) : ℝ) =
        ((⌈Real.logb 2 (m : ℝ)⌉ : ℤ) : ℝ) := by
      exact_mod_cast Int.toNat_of_nonneg hk0
    rw [hcast]
    exact_mod_cast Int.le_ceil _
  have h3 : (2 : ℝ) ^ ((⌈Real.logb 2 (m : ℝ)⌉.toNat : ℕ) : ℝ) =
      ((2 ^ ⌈Real.logb 2 (m : ℝ)⌉.toNat : ℕ) : ℝ) := by
    rw [Real.rpow_natCast]
    push_cast
    ring
  have hfinal : (m : ℝ) ≤ ((2 ^ ⌈Real.logb 2 (m : ℝ)⌉.toNat : ℕ) : ℝ) :=
    calc (m : ℝ) = (2 : ℝ) ^ Real.logb 2 (m : ℝ) := h1
    _ ≤ (2 : ℝ) ^ ((⌈Real.logb 2 (m : ℝ)⌉.toNat : ℕ) : ℝ) := h2
    _ = ((2 ^ ⌈Real.logb 2 (m : ℝ)⌉.toNat : ℕ) : ℝ) := h3
  exact_mod_cast hfinal

theorem nextpow2_le_pow (m : ℕ) (hm : 1 ≤ m) (c : ℕ) (hc : m ≤ 2 ^ c) :
    nextpow2 m ≤ 2 ^ c := by
  have hpos : (0 : ℝ) < (m : ℝ) := by exact_mod_cast hm
  have hlog : Real.logb 2 (m : ℝ) ≤ (c : ℝ) := by
    have h1 : Real.logb 2 (m : ℝ) ≤ Real.logb 2 ((2 : ℝ) ^ (c : ℝ)) := by
      apply Real.logb_le_logb_of_le one_lt_two hpos
      rw [Real.rpow_natCast]
      exact_mod_cast hc
    rwa [Real.logb_rpow (by norm_num) (by norm_num)] at h1
  have hceil : ⌈Real.logb 2 (m : ℝ)⌉ ≤ (c : ℤ) := Int.ceil_le.mpr (by exact_mod_cast hlog)
  have htn : ⌈Real.logb 2 (m : ℝ)⌉.toNat ≤ c := Int.toNat_le.mpr hceil
  exact Nat.pow_le_pow_right (by norm_num) htn

theorem nextpow2_five : nextpow2 5 = 8 := by
  have h1 := le_nextpow2 5 (by norm_num)
  have h2 := nextpow2_le_pow 5 (by norm_num) 3 (by norm_num)
  unfold nextpow2 at h1 h2 ⊢
  have h3 : 3 ≤ ⌈Real.logb 2 ((5 : ℕ) : ℝ)⌉.toNat := by
    by_contra h
    push_neg at h
    have : 2 ^ ⌈Real.logb 2 ((5 : ℕ) : ℝ)⌉.toNat ≤ 2 ^ 2 :=
      Nat.pow_le_pow_right (by norm_num) (by omega)
    omega
  have h4 : 2 ^ 3 ≤ 2 ^ ⌈Real.logb 2 ((5 : ℕ) : ℝ)⌉.toNat :=
    Nat.pow_le_pow_right (by norm_num) h3
  omega

theorem nextpow2_four : nextpow2 4 = 4 := by
  have h1 := le_nextpow2 4 (by norm_num)
  have h2 := nextpow2_le_pow 4 (by norm_num) 2 (by norm_num)
  omega

theorem gridAxis_strictMono (n : ℕ) (lo hi : ℝ) (h : lo < hi) :
    StrictMono (gridAxis n lo hi) := by
  intro i j hij
  unfold gridAxis
  have hn : (0 : ℝ) < (n : ℝ) := by exact_mod_cast i.pos
  have hd : 0 < (hi - lo) / (n : ℝ) := div_pos (by linarith) hn
  have hcast : ((i : ℕ) : ℝ) < ((j : ℕ) : ℝ) := by exact_mod_cast hij
  have := mul_lt_mul_of_pos_right hcast hd
  rw [mul_div_assoc, mul_div_assoc]
  linarith

theorem psidirect_a2I (i j : ℕ) (t : ℝ) :
    ψdirect 2 a2I i j t = phiI (i + j) t := by
  unfold ψdirect a2I wvec phiI
  simp only [Fin.sum_univ_two, Fin.val_zero, Fin.val_one]
  congr 1
  norm_num
  have key : Real.exp (-(π ^ 2 * t)) * Real.exp (-(π ^ 2 * t)) =
      Real.exp (-(2 * π ^ 2 * t)) := by
    rw [← Real.exp_add]
    ring_nf
  linear_combination (1 / 4) * key

theorem psiI_closed_aux :
    ∀ (k i j : ℕ) (t : ℝ), 5 - (i + j) ≤ k →
      ψ 2 NI a2I i j t = phiI (i + j) (TI i j t) := by
  intro k
  induction k with
  | zero =>
      intro i j t h
      have hij : ¬ i + j ≤ 4 := by omega
      rw [ψ, TI, dif_neg hij, dif_neg hij, psidirect_a2I]
  | succ k ih =>
      intro i j t h
      by_cases hij : i + j ≤ 4
      · have h1 : i + 1 + j = i + j + 1 := by omega
        have h2 : i + (j + 1) = i + j + 1 := by omega
        rw [ψ, TI, dif_pos hij, dif_pos hij, psidirect_a2I,
          ih (i + 1) j t (by omega), ih i (j + 1) t (by omega), h1, h2]
        have habs :
            |phiI (i + j + 1) (TI (i + 1) j t) + phiI (i + j + 1) (TI i (j + 1) t)| =
              π ^ (2 * (i + j) + 2) *
                ((Real.exp (-(2 * π ^ 2) * TI (i + 1) j t) +
                    Real.exp (-(2 * π ^ 2) * TI i (j + 1) t)) / 4) := by
          unfold phiI
          have hfac :
              (-1 : ℝ) ^ (i + j + 1) * π ^ (2 * (i + j + 1)) *
                    (Real.exp (-(2 * π ^ 2) * TI (i + 1) j t) / 4) +
                  (-1 : ℝ) ^ (i + j + 1) * π ^ (2 * (i + j + 1)) *
                    (Real.exp (-(2 * π ^ 2) * TI i (j + 1) t) / 4) =
                (-1 : ℝ) ^ (i + j + 1) *
                  (π ^ (2 * (i + j) + 2) *
                    ((Real.exp (-(2 * π ^ 2) * TI (i + 1) j t) +
                        Real.exp (-(2 * π ^ 2) * TI i (j + 1) t)) / 4)) := by
            have hexp : 2 * (i + j + 1) = 2 * (i + j) + 2 := by ring
            rw [hexp]
            ring
          rw [hfac, abs_mul, abs_pow, abs_neg, abs_one, one_pow, one_mul,
            abs_of_nonneg (by positivity)]
        rw [habs]
      · rw [ψ, TI, dif_neg hij, dif_neg hij, psidirect_a2I]

theorem psiI_closed (i j : ℕ) (t : ℝ) :
    ψ 2 NI a2I i j t = phiI (i + j) (TI i j t) :=
  psiI_closed_aux (5 - (i + j)) i j t le_rfl

theorem prodOdd_ge_one : ∀ i : ℕ, (1 : ℝ) ≤ prodOdd i := by
  intro i
  induction i with
  | zero => norm_num [prodOdd]
  | succ i ih =>
      have h2 : (1 : ℝ) ≤ 2 * (i : ℝ) + 1 := by
        have := Nat.cast_nonneg (α := ℝ) i
        linarith
      calc (1 : ℝ) = 1 * 1 := by ring
      _ ≤ prodOdd i * (2 * (i : ℝ) + 1) :=
          mul_le_mul ih h2 (by norm_num) (le_trans (by norm_num) ih)
      _ = prodOdd (i + 1) := rfl

theorem prodOdd_pair_le (i j : ℕ) (h : i + j ≤ 4) :
    prodOdd i * prodOdd j ≤ 105 := by
  have hi : i ≤ 4 := by omega
  have hj : j ≤ 4 := by omega
  interval_cases i <;> interval_cases j <;>
    first
      | omega
      | norm_num [prodOdd]

theorem pi_sq_le_ten : π ^ 2 ≤ 10 := by
  nlinarith [Real.pi_lt_d2, Real.pi_pos]

theorem exp_ten_le : Real.exp 10 ≤ 32768 := by
  have h := Real.exp_one_lt_d9
  rw [show (10 : ℝ) = ((10 : ℕ) : ℝ) * 1 by norm_num, Real.exp_nat_mul]
  calc Real.exp 1 ^ 10 ≤ 2.7182818286 ^ 10 :=
      pow_le_pow_left (Real.exp_pos 1).le h.le 10
  _ ≤ 32768 := by norm_num

theorem exp_lower_bound (T B m c : ℝ) (hTB : T ≤ B) (hB : 0 ≤ B)
    (hm : 20 * B ≤ m) (hc : Real.exp m ≤ c) :
    1 / c ≤ Real.exp (-(2 * π ^ 2) * T) := by
  have hπ2 : π ^ 2 ≤ 10 := pi_sq_le_ten
  have hπ0 : (0 : ℝ) ≤ π ^ 2 := sq_nonneg π
  have h1 : 2 * π ^ 2 * T ≤ m := by nlinarith [mul_nonneg hπ0 (sub_nonneg.mpr hTB)]
  have h2 : Real.exp (2 * π ^ 2 * T) ≤ c := le_trans (Real.exp_le_exp.mpr h1) hc
  have h3 : -(2 * π ^ 2) * T = -(2 * π ^ 2 * T) := by ring
  rw [h3, Real.exp_neg, one_div]
  exact inv_le_inv_of_le (Real.exp_pos _) h2

theorem rpow_inv_le (b B : ℝ) (m : ℕ) (hb : 0 ≤ b) (hB : 0 < B) (hm : m ≠ 0)
    (h : b ≤ B ^ m) : b ^ ((1 : ℝ) / (m : ℝ)) ≤ B := by
  have h1 : b ^ ((1 : ℝ) / (m : ℝ)) ≤ (B ^ m) ^ ((1 : ℝ) / (m : ℝ)) :=
    Real.rpow_le_rpow hb h (by positivity)
  rwa [← Real.rpow_natCast B m, ← Real.rpow_mul hB.le,
    mul_one_div_cancel (by exact_mod_cast hm), Real.rpow_one] at h1

/-- Uniform bound on the refined times of the instance: on incoming
`t ∈ [0, 0.1]` every `TI i j` with `i + j ≥ 2` lies in `[0, 1/2]`. -/
theorem TI_bound :
    ∀ (k i j : ℕ) (t : ℝ), 5 - (i + j) ≤ k → 2 ≤ i + j →
      0 ≤ t → t ≤ 0.1 → 0 ≤ TI i j t ∧ TI i j t ≤ 1 / 2 := by
  intro k
  induction k with
  | zero =>
      intro i j t hk h2 ht0 ht1
      have hij : ¬ i + j ≤ 4 := by omega
      rw [TI, dif_neg hij]
      exact ⟨ht0, le_trans ht1 (by norm_num)⟩
  | succ k ih =>
      intro i j t hk h2 ht0 ht1
      by_cases hij : i + j ≤ 4
      · rw [TI, dif_pos hij]
        obtain ⟨hc1a, hc1b⟩ := ih (i + 1) j t (by omega) (by omega) ht0 ht1
        obtain ⟨hc2a, hc2b⟩ := ih i (j + 1) t (by omega) (by omega) ht0 ht1
        have hE1 : 1 / 32768 ≤ Real.exp (-(2 * π ^ 2) * TI (i + 1) j t) :=
          exp_lower_bound _ (1 / 2) 10 32768 hc1b (by norm_num) (by norm_num) exp_ten_le
        have hE2 : 1 / 32768 ≤ Real.exp (-(2 * π ^ 2) * TI i (j + 1) t) :=
          exp_lower_bound _ (1 / 2) 10 32768 hc2b (by norm_num) (by norm_num) exp_ten_le
        have hπ3 : (3 : ℝ) ≤ π := Real.pi_gt_three.le
        have hP0 : (0 : ℝ) ≤ prodOdd i * prodOdd j :=
          le_trans zero_le_one
            (one_le_mul_of_one_le_of_one_le (prodOdd_ge_one i) (prodOdd_ge_one j))
        have hC : (1 + 1 / (2 : ℝ) ^ (i + j + 1)) / 3 ≤ 1 / 2 := by
          have hp : (2 : ℝ) ≤ 2 ^ (i + j + 1) := by
            calc (2 : ℝ) = 2 ^ 1 := (pow_one 2).symm
            _ ≤ 2 ^ (i + j + 1) := by
                apply pow_le_pow_right (by norm_num)
                omega
          have : (1 : ℝ) / 2 ^ (i + j + 1) ≤ 1 / 2 :=
            one_div_le_one_div_of_le (by norm_num) hp
          linarith
        have hC0 : (0 : ℝ) ≤ (1 + 1 / (2 : ℝ) ^ (i + j + 1)) / 3 := by positivity
        have hK : (1 + 1 / (2 : ℝ) ^ (i + j + 1)) / 3 * prodOdd i * prodOdd j ≤
            105 / 2 := by
          calc (1 + 1 / (2 : ℝ) ^ (i + j + 1)) / 3 * prodOdd i * prodOdd j =
              (1 + 1 / (2 : ℝ) ^ (i + j + 1)) / 3 * (prodOdd i * prodOdd j) := by
                ring
          _ ≤ 1 / 2 * 105 :=
              mul_le_mul hC (prodOdd_pair_le i j hij) hP0 (by norm_num)
          _ = 105 / 2 := by norm_num
        have hK0 : (0 : ℝ) ≤
            (1 + 1 / (2 : ℝ) ^ (i + j + 1)) / 3 * prodOdd i * prodOdd j := by
          calc (0 : ℝ) ≤ (1 + 1 / (2 : ℝ) ^ (i + j + 1)) / 3 * (prodOdd i * prodOdd j) :=
              mul_nonneg hC0 hP0
          _ = _ := by ring
        have hpow : (729 : ℝ) ≤ π ^ (2 * (i + j) + 2) := by
          calc (729 : ℝ) = 3 ^ 6 := by norm_num
          _ ≤ π ^ 6 := pow_le_pow_left (by norm_num) hπ3 6
          _ ≤ π ^ (2 * (i + j) + 2) := by
              apply pow_le_pow_right (by linarith)
              omega
        have hNIcast : ((NI : ℕ) : ℝ) = 1000000 := by norm_num [NI]
        have hD : (2187 : ℝ) * 1000000 / 65536 ≤
            π * (NI : ℝ) *
              (π ^ (2 * (i + j) + 2) *
                ((Real.exp (-(2 * π ^ 2) * TI (i + 1) j t) +
                    Real.exp (-(2 * π ^ 2) * TI i (j + 1) t)) / 4)) := by
          rw [hNIcast]
          have hsum : (1 : ℝ) / 65536 ≤
              (Real.exp (-(2 * π ^ 2) * TI (i + 1) j t) +
                  Real.exp (-(2 * π ^ 2) * TI i (j + 1) t)) / 4 := by
            linarith
          calc (2187 : ℝ) * 1000000 / 65536 =
              3 * 1000000 * (729 * (1 / 65536)) := by norm_num
          _ ≤ π * 1000000 *
                (π ^ (2 * (i + j) + 2) *
                  ((Real.exp (-(2 * π ^ 2) * TI (i + 1) j t) +
                      Real.exp (-(2 * π ^ 2) * TI i (j + 1) t)) / 4)) := by
              apply mul_le_mul
              · exact mul_le_mul hπ3 le_rfl (by norm_num) (by linarith)
              · exact mul_le_mul hpow hsum (by norm_num) (by positivity)
              · norm_num
              · positivity
        have hbase : (1 + 1 / (2 : ℝ) ^ (i + j + 1)) / 3 * prodOdd i * prodOdd j /
            (π * (NI : ℝ) *
              (π ^ (2 * (i + j) + 2) *
                ((Real.exp (-(2 * π ^ 2) * TI (i + 1) j t) +
                    Real.exp (-(2 * π ^ 2) * TI i (j + 1) t)) / 4))) ≤
            (1 / 2 : ℝ) ^ (2 + (i + j)) := by
          have h64 : ((1 / 2 : ℝ)) ^ 6 ≤ (1 / 2 : ℝ) ^ (2 + (i + j)) := by
            apply pow_le_pow_of_le_one (by norm_num) (by norm_num)
            omega
          calc _ ≤ (105 / 2 : ℝ) / (2187 * 1000000 / 65536) :=
              div_le_div (by norm_num) hK (by norm_num) hD
          _ ≤ ((1 / 2 : ℝ)) ^ 6 := by norm_num
          _ ≤ _ := h64
        have hbase0 : (0 : ℝ) ≤
            (1 + 1 / (2 : ℝ) ^ (i + j + 1)) / 3 * prodOdd i * prodOdd j /
              (π * (NI : ℝ) *
                (π ^ (2 * (i + j) + 2) *
                  ((Real.exp (-(2 * π ^ 2) * TI (i + 1) j t) +
                      Real.exp (-(2 * π ^ 2) * TI i (j + 1) t)) / 4))) := by
          apply div_nonneg hK0
          positivity
        constructor
        · exact Real.rpow_nonneg hbase0 _
        · have hexp : (1 : ℝ) / (2 + (i : ℝ) + (j : ℝ)) =
              (1 : ℝ) / (((2 + (i + j) : ℕ)) : ℝ) := by
            push_cast
            ring
          rw [hexp]
          exact rpow_inv_le _ _ (2 + (i + j)) hbase0 (by norm_num) (by omega) hbase
      · rw [TI, dif_neg hij]
        exact ⟨ht0, le_trans ht1 (by norm_num)⟩

theorem sumI_pos (t : ℝ) :
    0 < ψ 2 NI a2I 0 2 t + ψ 2 NI a2I 2 0 t + 2 * ψ 2 NI a2I 1 1 t := by
  rw [psiI_closed 0 2 t, psiI_closed 2 0 t, psiI_closed 1 1 t]
  unfold phiI
  norm_num
  positivity

theorem sumI_lb (t : ℝ) (ht0 : 0 ≤ t) (ht1 : t ≤ 0.1) :
    1 / 512 ≤ ψ 2 NI a2I 0 2 t + ψ 2 NI a2I 2 0 t + 2 * ψ 2 NI a2I 1 1 t := by
  rw [psiI_closed 0 2 t, psiI_closed 2 0 t, psiI_closed 1 1 t]
  have h02 := (TI_bound 3 0 2 t (by norm_num) (by norm_num) ht0 ht1).2
  have h20 := (TI_bound 3 2 0 t (by norm_num) (by norm_num) ht0 ht1).2
  have h11 := (TI_bound 3 1 1 t (by norm_num) (by norm_num) ht0 ht1).2
  have hE02 : 1 / 32768 ≤ Real.exp (-(2 * π ^ 2) * TI 0 2 t) :=
    exp_lower_bound _ (1 / 2) 10 32768 h02 (by norm_num) (by norm_num) exp_ten_le
  have hE20 : 1 / 32768 ≤ Real.exp (-(2 * π ^ 2) * TI 2 0 t) :=
    exp_lower_bound _ (1 / 2) 10 32768 h20 (by norm_num) (by norm_num) exp_ten_le
  have hE11 : 1 / 32768 ≤ Real.exp (-(2 * π ^ 2) * TI 1 1 t) :=
    exp_lower_bound _ (1 / 2) 10 32768 h11 (by norm_num) (by norm_num) exp_ten_le
  have hπ : (3 : ℝ) ≤ π := Real.pi_gt_three.le
  have hπ4 : (81 : ℝ) ≤ π ^ 4 := by
    calc (81 : ℝ) = 3 ^ 4 := by norm_num
    _ ≤ π ^ 4 := pow_le_pow_left (by norm_num) hπ 4
  rw [show -(2 * π ^ 2) * TI 0 2 t = -(2 * π ^ 2 * TI 0 2 t) by ring] at hE02
  rw [show -(2 * π ^ 2) * TI 2 0 t = -(2 * π ^ 2 * TI 2 0 t) by ring] at hE20
  rw [show -(2 * π ^ 2) * TI 1 1 t = -(2 * π ^ 2 * TI 1 1 t) by ring] at hE11
  unfold phiI
  norm_num
  nlinarith [mul_nonneg (sub_nonneg.mpr hπ4) (sub_nonneg.mpr hE02),
    mul_nonneg (sub_nonneg.mpr hπ4) (sub_nonneg.mpr hE20),
    mul_nonneg (sub_nonneg.mpr hπ4) (sub_nonneg.mpr hE11)]

theorem gammaEstI_pos (t : ℝ) : 0 < γest 2 NI a2I t := by
  unfold γest
  apply Real.rpow_pos_of_pos
  have hN : (0 : ℝ) < ((NI : ℕ) : ℝ) := by norm_num [NI]
  exact mul_pos (mul_pos (mul_pos two_pos Real.pi_pos) hN) (sumI_pos t)

theorem rpow_neg_third_lt (X : ℝ) (hX : 1331 < X) : X ^ (-(1 : ℝ) / 3) < 1 / 11 := by
  have hXpos : (0 : ℝ) < X := by linarith
  have h11 : (11 : ℝ) < X ^ ((1 : ℝ) / 3) := by
    have h := Real.rpow_lt_rpow (by norm_num : (0 : ℝ) ≤ 1331) hX
      (by norm_num : (0 : ℝ) < 1 / 3)
    have h1331 : (1331 : ℝ) ^ ((1 : ℝ) / 3) = 11 := by
      rw [show (1331 : ℝ) = 11 ^ (3 : ℕ) by norm_num, ← Real.rpow_natCast 11 3,
        ← Real.rpow_mul (by norm_num : (0 : ℝ) ≤ 11)]
      norm_num
    rwa [h1331] at h
  have hrw : X ^ (-(1 : ℝ) / 3) = (X ^ ((1 : ℝ) / 3))⁻¹ := by
    rw [show (-(1 : ℝ) / 3) = -((1 : ℝ) / 3) by ring, Real.rpow_neg hXpos.le]
  rw [hrw, show (1 : ℝ) / 11 = (11 : ℝ)⁻¹ by norm_num]
  exact inv_lt_inv_of_lt (by norm_num) h11

theorem gammaEstI_lt (t : ℝ) (ht0 : 0 ≤ t) (ht1 : t ≤ 0.1) :
    γest 2 NI a2I t < 1 / 11 := by
  unfold γest
  apply rpow_neg_third_lt
  have hs := sumI_lb t ht0 ht1
  have hπ : (3 : ℝ) ≤ π := Real.pi_gt_three.le
  have hN : ((NI : ℕ) : ℝ) = 1000000 := by norm_num [NI]
  rw [hN]
  nlinarith [mul_nonneg (sub_nonneg.mpr hπ) (sub_nonneg.mpr hs)]

theorem TI_continuous : ∀ (k i j : ℕ), 5 - (i + j) ≤ k → Continuous (TI i j) := by
  intro k
  induction k with
  | zero =>
      intro i j hk
      have hij : ¬ i + j ≤ 4 := by omega
      have heq : TI i j = fun t => t := funext fun t => by rw [TI, dif_neg hij]
      rw [heq]
      exact continuous_id
  | succ k ih =>
      intro i j hk
      by_cases hij : i + j ≤ 4
      · have hc1 : Continuous (TI (i + 1) j) := ih (i + 1) j (by omega)
        have hc2 : Continuous (TI i (j + 1)) := ih i (j + 1) (by omega)
        have hN : (0 : ℝ) < ((NI : ℕ) : ℝ) := by norm_num [NI]
        have heq : TI i j = fun t =>
            ((1 + 1 / (2 : ℝ) ^ (i + j + 1)) / 3 * prodOdd i * prodOdd j /
                (π * (NI : ℝ) *
                  (π ^ (2 * (i + j) + 2) *
                    ((Real.exp (-(2 * π ^ 2) * TI (i + 1) j t) +
                        Real.exp (-(2 * π ^ 2) * TI i (j + 1) t)) / 4)))) ^
              (1 / (2 + (i : ℝ) + (j : ℝ))) :=
          funext fun t => by rw [TI, dif_pos hij]
        rw [heq]
        apply Continuous.rpow_const
        · apply Continuous.div continuous_const
          · apply continuous_const.mul
            apply continuous_const.mul
            apply Continuous.div_const
            exact (Real.continuous_exp.comp (continuous_const.mul hc1)).add
              (Real.continuous_exp.comp (continuous_const.mul hc2))
          · intro t
            refine ne_of_gt ?_
            refine mul_pos (mul_pos Real.pi_pos hN) (mul_pos (pow_pos Real.pi_pos _) ?_)
            have he1 := Real.exp_pos (-(2 * π ^ 2) * TI (i + 1) j t)
            have he2 := Real.exp_pos (-(2 * π ^ 2) * TI i (j + 1) t)
            linarith
        · intro x
          right
          positivity
      · have heq : TI i j = fun t => t := funext fun t => by rw [TI, dif_neg hij]
        rw [heq]
        exact continuous_id

theorem psiI_continuous (i j : ℕ) : Continuous (fun t => ψ 2 NI a2I i j t) := by
  have heq : (fun t => ψ 2 NI a2I i j t) = fun t => phiI (i + j) (TI i j t) :=
    funext fun t => psiI_closed i j t
  rw [heq]
  unfold phiI
  apply continuous_const.mul
  apply Continuous.div_const
  exact Real.continuous_exp.comp
    (continuous_const.mul (TI_continuous (5 - (i + j)) i j le_rfl))

theorem gammaEstI_continuous : Continuous (fun t => γest 2 NI a2I t) := by
  unfold γest
  apply Continuous.rpow_const
  · apply continuous_const.mul
    exact ((psiI_continuous 0 2).add (psiI_continuous 2 0)).add
      (continuous_const.mul (psiI_continuous 1 1))
  · intro x
    left
    refine ne_of_gt ?_
    have hN : (0 : ℝ) < ((NI : ℕ) : ℝ) := by norm_num [NI]
    exact mul_pos (mul_pos (mul_pos two_pos Real.pi_pos) hN) (sumI_pos x)

theorem objI_continuous : Continuous (brentqObjective 2 NI a2I) := by
  unfold brentqObjective γfun
  apply Continuous.sub continuous_id
  exact Continuous.div (Continuous.sub continuous_id gammaEstI_continuous)
    gammaEstI_continuous (fun t => ne_of_gt (gammaEstI_pos t))

theorem objI_at_zero : brentqObjective 2 NI a2I 0 = 1 := by
  have hg := gammaEstI_pos 0
  unfold brentqObjective γfun
  field_simp

theorem objI_at_pt1 : brentqObjective 2 NI a2I 0.1 < 0 := by
  have hg0 := gammaEstI_pos 0.1
  have hg1 := gammaEstI_lt 0.1 (by norm_num) (by norm_num)
  unfold brentqObjective γfun
  rw [sub_neg, lt_div_iff hg0]
  linarith

theorem objI_exists_root :
    ∃ ts, ts ∈ Set.Icc (0 : ℝ) 0.1 ∧ brentqObjective 2 NI a2I ts = 0 := by
  have hsub := intermediate_value_Icc' (by norm_num : (0 : ℝ) ≤ 0.1)
    objI_continuous.continuousOn
  have hmem : (0 : ℝ) ∈
      Set.Icc (brentqObjective 2 NI a2I 0.1) (brentqObjective 2 NI a2I 0) := by
    constructor
    · exact le_of_lt objI_at_pt1
    · rw [objI_at_zero]
      norm_num
  obtain ⟨ts, hts, hroot⟩ := hsub hmem
  exact ⟨ts, hts, hroot⟩

/-- C2 is false on the code: on the concrete solver instance `n = 2`,
`N = 10^6`, `a2 = a2I`, the objective `t - γ(t)` handed to the root
finder has a root in the bracket `[0, 0.1]`, and at every such root the
claimed fixed-point residual `(t* - γ_est(t*)) / γ_est(t*)` is NOT zero
(the code's `γ` already returns that residual, so a root of `t - γ(t)`
makes the residual equal `t*` itself, which is nonzero). -/
theorem root_residual_not_zero :
    ¬ (∀ ts : ℝ, brentqObjective 2 NI a2I ts = 0 → 0 ≤ ts → ts ≤ 0.1 →
        (ts - γest 2 NI a2I ts) / γest 2 NI a2I ts = 0) := by
  intro hclaim
  obtain ⟨ts, hmem, hroot⟩ := objI_exists_root
  have hres0 := hclaim ts hroot hmem.1 hmem.2
  have hres : (ts - γest 2 NI a2I ts) / γest 2 NI a2I ts = ts := by
    unfold brentqObjective γfun at hroot
    linarith
  have hts0 : ts = 0 := by
    rw [hres] at hres0
    exact hres0
  rw [hts0, objI_at_zero] at hroot
  exact absurd hroot (by norm_num)

/-- C2 amended: the value `t*` the root finder returns is a fixed point
of the residual-returning map `γ` that the code actually defines, i.e.
`t* - γ(t*) = 0` says the residual `(t* - γ_est(t*)) / γ_est(t*)` equals
`t*` itself — not that it is zero (it is zero only when `t* = 0`). -/
theorem root_is_residual_fixed_point (n N : ℕ) (a2 : Mat n) (ts : ℝ)
    (h : brentqObjective n N a2 ts = 0) :
    (ts - γest n N a2 ts) / γest n N a2 ts = ts := by
  unfold brentqObjective γfun at h
  linarith

theorem psidirect_zeroMat (n i j : ℕ) (t : ℝ) :
    ψdirect n (fun _ _ => 0) i j t = 0 := by
  unfold ψdirect
  simp

theorem psi_zeroMat (n N i j : ℕ) (t : ℝ) :
    ψ n N (fun _ _ => 0) i j t = 0 := by
  by_cases hij : i + j ≤ 4
  · rw [ψ, dif_pos hij]
    exact psidirect_zeroMat n i j _
  · rw [ψ, dif_neg hij]
    exact psidirect_zeroMat n i j t

theorem gammaEst_zeroMat (n N : ℕ) (t : ℝ) :
    γest n N (fun _ _ => 0) t = 0 := by
  unfold γest
  rw [psi_zeroMat, psi_zeroMat, psi_zeroMat,
    show (0 : ℝ) + 0 + 2 * 0 = 0 by norm_num, mul_zero,
    Real.zero_rpow (by norm_num : (-(1 : ℝ) / 3) ≠ 0)]

theorem root_is_residual_fixed_point_witness :
    brentqObjective 1 1 (fun _ _ => 0) 0 = 0 ∧
      (0 - γest 1 1 (fun _ _ => 0) 0) / γest 1 1 (fun _ _ => 0) 0 = 0 := by
  have hobj : brentqObjective 1 1 (fun _ _ => 0) 0 = 0 := by
    unfold brentqObjective γfun
    rw [gammaEst_zeroMat]
    norm_num
  exact ⟨hobj, root_is_residual_fixed_point 1 1 (fun _ _ => 0) 0 hobj⟩

theorem kde2d_error_of_mismatch (cb : Collab) (x y : List ℝ) (nreq : ℕ)
    (limits : Limits) (h : x.length ≠ y.length) :
    kde2d cb x y nreq limits =
      Except.error "x and y must have the same length." := by
  unfold kde2d
  rw [if_pos (fun he => h he.symm)]

theorem kde2d_error_of_brentq_none (cb : Collab) (x y : List ℝ) (nreq : ℕ)
    (limits : Limits) (hlen : y.length = x.length)
    (hfail : cb.brentq
        (brentqObjective (nextpow2 nreq) x.length (a2Of cb x y (nextpow2 nreq) limits))
        0 0.1 = none) :
    kde2d cb x y nreq limits =
      Except.error "Bandwidth optimization did not converge." := by
  unfold kde2d
  rw [if_neg (fun hne => hne hlen), hfail]

theorem kde2d_ok_grid (cb : Collab) (x y : List ℝ) (nreq : ℕ)
    (limits : Limits) (res : KdeResult (nextpow2 nreq))
    (h : kde2d cb x y nreq limits = Except.ok res) :
    res.gridx = gridAxis (nextpow2 nreq)
        (resolvedBounds x y limits).1.1 (resolvedBounds x y limits).1.2 ∧
      res.gridy = gridAxis (nextpow2 nreq)
        (resolvedBounds x y limits).2.1 (resolvedBounds x y limits).2.2 := by
  unfold kde2d at h
  split at h
  · exact absurd h (by simp)
  · split at h
    · exact absurd h (by simp)
    · rw [Except.ok.injEq] at h
      subst h
      exact ⟨rfl, rfl⟩

/-- C6: the solver hands the root finder the objective `t - γ(t)` on the
bracket `(0, 0.1)`; when the bracketed root finder fails (no sign change
or no convergence, modelled by the collaborator returning `none`),
`kde2d` returns the `ConvergenceFailure` error immediately — no
fallback, partial or default result, and no retry. -/
theorem convergence_failure_propagates (cb : Collab) (x y : List ℝ)
    (nreq : ℕ) (limits : Limits) (hlen : y.length = x.length)
    (hfail : cb.brentq
        (brentqObjective (nextpow2 nreq) x.length (a2Of cb x y (nextpow2 nreq) limits))
        0 0.1 = none) :
    kde2d cb x y nreq limits =
      Except.error "Bandwidth optimization did not converge." :=
  kde2d_error_of_brentq_none cb x y nreq limits hlen hfail

theorem convergence_failure_propagates_witness :
    ([0] : List ℝ).length = ([0] : List ℝ).length ∧
      kde2d cbFail [0] [0] 1 Limits.auto =
        Except.error "Bandwidth optimization did not converge." :=
  ⟨rfl, convergence_failure_propagates cbFail [0] [0] 1 Limits.auto rfl rfl⟩

/-- C9: `kde2d` returns the `LengthMismatch` error exactly when the two
input sequences differ in length — for any collaborator assignment, so
the check precedes binning and every other computation; equal-length
inputs never produce it. -/
theorem length_mismatch_iff (cb : Collab) (x y : List ℝ) (nreq : ℕ)
    (limits : Limits) :
    kde2d cb x y nreq limits =
        Except.error "x and y must have the same length." ↔
      x.length ≠ y.length := by
  by_cases h : y.length = x.length
  · have hres : kde2d cb x y nreq limits ≠
        Except.error "x and y must have the same length." := by
      unfold kde2d
      rw [if_neg (fun hne => hne h)]
      rcases cb.brentq
          (brentqObjective (nextpow2 nreq) x.length (a2Of cb x y (nextpow2 nreq) limits))
          0 0.1 with _ | ts
      · intro hcontra
        injection hcontra with h'
        exact absurd h' (by decide)
      · intro hcontra
        exact Except.noConfusion hcontra
    constructor
    · intro hcontra
      exact absurd hcontra hres
    · intro hne
      exact absurd h.symm hne
  · have hne : x.length ≠ y.length := fun he => h he.symm
    constructor
    · intro _
      exact hne
    · intro _
      exact kde2d_error_of_mismatch cb x y nreq limits hne

/-- C10: both failure modes of the public entry point — mismatched input
lengths and non-convergence of the bandwidth solve — surface as the same
exception type (Python `ValueError`, modelled as `Except.error` over the
single message type `String`), distinguishable only by their message
texts, which differ. -/
theorem errors_share_type_distinct_messages :
    (∀ (cb : Collab) (x y : List ℝ) (nreq : ℕ) (limits : Limits),
        x.length ≠ y.length →
          kde2d cb x y nreq limits =
            Except.error "x and y must have the same length.") ∧
      (∀ (cb : Collab) (x y : List ℝ) (nreq : ℕ) (limits : Limits),
          y.length = x.length →
            cb.brentq
                (brentqObjective (nextpow2 nreq) x.length
                  (a2Of cb x y (nextpow2 nreq) limits)) 0 0.1 = none →
              kde2d cb x y nreq limits =
                Except.error "Bandwidth optimization did not converge.") ∧
      ("x and y must have the same length." : String) ≠
        "Bandwidth optimization did not converge." :=
  ⟨kde2d_error_of_mismatch, kde2d_error_of_brentq_none, by decide⟩

theorem errors_share_type_distinct_messages_witness :
    kde2d cbFail [0] ([] : List ℝ) 1 Limits.auto =
        Except.error "x and y must have the same length." ∧
      kde2d cbFail [0] [0] 1 Limits.auto =
        Except.error "Bandwidth optimization did not converge." ∧
      ("x and y must have the same length." : String) ≠
        "Bandwidth optimization did not converge." :=
  ⟨errors_share_type_distinct_messages.1 cbFail [0] [] 1 Limits.auto (by decide),
    errors_share_type_distinct_messages.2.1 cbFail [0] [0] 1 Limits.auto rfl rfl,
    errors_share_type_distinct_messages.2.2⟩

/-- C8: the grid resolution is coerced to `nextpow2 nreq`, the smallest
power of two that is at least the requested `nreq` (so `nreq = 5` yields
8 and `nreq = 4` yields 4); the returned density lives on an
`nextpow2 nreq × nextpow2 nreq` matrix and each returned grid axis is
the `nextpow2 nreq`-entry sequence of left bin edges, which is strictly
increasing whenever the resolved axis bounds satisfy `lo < hi` (the
spec's data-model invariant `xmax > xmin`, `ymax > ymin`). -/
theorem density_shape_and_grid :
    (∀ nreq : ℕ, 1 ≤ nreq →
        nreq ≤ nextpow2 nreq ∧ ∀ c : ℕ, nreq ≤ 2 ^ c → nextpow2 nreq ≤ 2 ^ c) ∧
      nextpow2 5 = 8 ∧ nextpow2 4 = 4 ∧
      (∀ (n : ℕ) (lo hi : ℝ), lo < hi → StrictMono (gridAxis n lo hi)) ∧
      (∀ (n : ℕ) (lo hi : ℝ), (List.ofFn (gridAxis n lo hi)).length = n) ∧
      (∀ (cb : Collab) (x y : List ℝ) (nreq : ℕ) (limits : Limits)
          (res : KdeResult (nextpow2 nreq)),
        kde2d cb x y nreq limits = Except.ok res →
          res.gridx = gridAxis (nextpow2 nreq)
              (resolvedBounds x y limits).1.1 (resolvedBounds x y limits).1.2 ∧
            res.gridy = gridAxis (nextpow2 nreq)
              (resolvedBounds x y limits).2.1 (resolvedBounds x y limits).2.2) :=
  ⟨fun nreq h => ⟨le_nextpow2 nreq h, nextpow2_le_pow nreq h⟩,
    nextpow2_five, nextpow2_four,
    gridAxis_strictMono,
    fun n lo hi => List.length_ofFn _,
    kde2d_ok_grid⟩

theorem density_shape_and_grid_witness :
    5 ≤ nextpow2 5 ∧ StrictMono (gridAxis 2 0 1) :=
  ⟨(density_shape_and_grid.1 5 (by norm_num)).1,
    density_shape_and_grid.2.2.2.1 2 0 1 (by norm_num)⟩


end KDE
